import Mathlib

/-!
Shallow embedding of the `brenda_references` repository's core text-matching,
canonical-entity-store and taxonomy logic, with theorems settling the frozen
claims about it.  Machine floats are modelled as exact rationals; Python sets
as `Finset`; Python dicts (insertion ordered) as association lists; functions
that can raise an uncaught exception return `Option`/`none` at the raising
point.
-/

/-! ## Character classes (Python `string` module, ASCII range) -/

/-- Whitespace characters recognised by Python `str.split()` / `str.strip()`
(ASCII range). -/
def pyIsSpace (c : Char) : Bool :=
  c == ' ' || c == '\t' || c == '\n' || c == '\r' || c == '\x0b' || c == '\x0c'

/-- The characters of Python `string.punctuation`. -/
def punctChars : List Char :=
  ['!', '"', '#', '$', '%', '&', '\x27', '(', ')', '*', '+', ',', '-', '.',
   '/', ':', ';', '<', '=', '>', '?', '@', '[', '\\', ']', '^', '_', '\x60',
   '\x7b', '|', '\x7d', '~']

/-- Membership in `string.punctuation`. -/
def isPunctChar (c : Char) : Bool := punctChars.contains c

/-- Python `string.ascii_lowercase` membership. -/
def isAsciiLower (c : Char) : Bool := 'a' ≤ c && c ≤ 'z'

/-- Python `string.ascii_uppercase` membership. -/
def isAsciiUpper (c : Char) : Bool := 'A' ≤ c && c ≤ 'Z'

/-- ASCII letter. -/
def isAsciiAlpha (c : Char) : Bool := isAsciiLower c || isAsciiUpper c

/-- ASCII digit (regex `\d` on the repository's ASCII data). -/
def isAsciiDigit (c : Char) : Bool := '0' ≤ c && c ≤ '9'

/-- Regex `\w` (word character) on the repository's ASCII data. -/
def isWordChar (c : Char) : Bool := isAsciiAlpha c || isAsciiDigit c || c == '_'

/-! ## Python string primitives -/

/-- Python `str.strip()` on a character list: drop leading and trailing
whitespace. -/
def pyStrip (l : List Char) : List Char :=
  List.rdropWhile pyIsSpace (l.dropWhile pyIsSpace)

/-- Python `str.strip(string.punctuation)`: drop leading and trailing
punctuation characters. -/
def pyStripPunct (l : List Char) : List Char :=
  List.rdropWhile isPunctChar (l.dropWhile isPunctChar)

/-- Helper for `pyWords`: accumulate the current word (reversed) while
scanning. -/
def wordsAux : List Char → List Char → List (List Char)
  | [], cur => if cur.isEmpty then [] else [cur.reverse]
  | c :: rest, cur =>
    if pyIsSpace c then
      if cur.isEmpty then wordsAux rest [] else cur.reverse :: wordsAux rest []
    else wordsAux rest (c :: cur)

/-- Python `str.split()` (no argument): split on whitespace runs, discarding
empty pieces. -/
def pyWords (s : String) : List (List Char) := wordsAux s.toList []

/-- Python `" ".join(...)` on character lists. -/
def joinSpace : List (List Char) → List Char
  | [] => []
  | [w] => w
  | w :: x :: ws => w ++ ' ' :: joinSpace (x :: ws)

/-- Python `s.lower()` (ASCII case folding as used on this repository's
data). -/
def lowerS (s : String) : String := String.mk (s.toList.map Char.toLower)

/-- Python slice `s[a:b]` (for `a ≤ b` within range), as a character list. -/
def pySlice (s : String) (a b : Nat) : List Char := (s.toList.drop a).take (b - a)

/-! ## Similarity primitive

`rapidfuzz.fuzz.ratio` computes the normalized indel similarity:
`100 * (1 - dist / (len a + len b))` where `dist` is the minimal number of
insertions and deletions turning `a` into `b`.  We embed the distance with an
explicit fuel argument (`fuel ≥ len a + len b` always suffices) so that the
kernel can evaluate it. -/

/-- Indel (insertion/deletion-only edit) distance with fuel.  With
`fuel ≥ xs.length + ys.length` this is the true indel distance. -/
def indelDistF : Nat → List Char → List Char → Nat
  | _, [], ys => ys.length
  | _, xs, [] => xs.length
  | 0, xs, ys => xs.length + ys.length
  | f + 1, x :: xs, y :: ys =>
    if x = y then indelDistF f xs ys
    else 1 + min (indelDistF f (x :: xs) ys) (indelDistF f xs (y :: ys))

/-- Indel distance of two character lists. -/
def indelDist (a b : List Char) : Nat := indelDistF (a.length + b.length) a b

/-- Length of a longest common subsequence, with fuel (same convention as
`indelDistF`). -/
def lcsF : Nat → List Char → List Char → Nat
  | _, [], _ => 0
  | _, _, [] => 0
  | 0, _, _ => 0
  | f + 1, x :: xs, y :: ys =>
    if x = y then 1 + lcsF f xs ys
    else max (lcsF f (x :: xs) ys) (lcsF f xs (y :: ys))

/-- Length of a longest common subsequence of two character lists. -/
def lcs (a b : List Char) : Nat := lcsF (a.length + b.length) a b

/-- `rapidfuzz.fuzz.ratio` on character lists: normalized indel similarity
scaled to `[0, 100]` (100 on two empty strings). -/
def fuzzRatioL (a b : List Char) : ℚ :=
  if a.length + b.length = 0 then 100
  else 100 * (1 - (indelDist a b : ℚ) / (a.length + b.length))

/-- `rapidfuzz.fuzz.ratio` on strings. -/
def fuzzRatio (a b : String) : ℚ := fuzzRatioL a.toList b.toList

/-- `ratio` from `brenda_references/utils/utils.py` (also duplicated in
`scripts/preannotate.py`): average of `fuzz.ratio` applied to the lower-cased
arguments and to the raw arguments. -/
def ratio (a b : String) : ℚ := (fuzzRatio (lowerS a) (lowerS b) + fuzzRatio a b) / 2

/-- The comparison `ratio x y >= thr` with denominators cleared to integer
arithmetic, so that the kernel can evaluate it on concrete inputs (`Rat`
field operations do not reduce in the kernel).  `ratioGeB_eq_decide` proves it
equal to `decide (thr ≤ ratio x y)`. -/
def ratioGeB (x y : String) (thr : ℚ) : Bool :=
  if x.toList.length + y.toList.length = 0 then decide (thr.num ≤ 100 * thr.den)
  else
    decide (thr.num * ((x.toList.length + y.toList.length : ℕ) : ℤ) ≤
      (100 * ((x.toList.length + y.toList.length : ℕ) : ℤ) -
        50 * ((indelDist (x.toList.map Char.toLower) (y.toList.map Char.toLower) : ℤ) +
          (indelDist x.toList y.toList : ℤ))) * thr.den)

/-- Spec-side definition ("percent of matched characters after optimal
alignment"), list level: the normalized indel similarity expressed through the
longest common subsequence. -/
def normIndelSimL (a b : List Char) : ℚ :=
  if a.length + b.length = 0 then 100
  else 100 * (2 * (lcs a b : ℚ)) / (a.length + b.length)

/-- Spec-side definition of the normalized indel similarity on strings, used
to state the refinement part of claim C9. -/
def normIndelSim (a b : String) : ℚ := normIndelSimL a.toList b.toList

/-! ## Fuzzy matching (`fuzzy_find_all`, `abbreviate_bacteria`) -/

/-- `abbreviate_bacteria` from `utils.py`: replace the first whitespace token
by its first character followed by `"."`.  (On a non-empty all-whitespace
argument the Python code raises `IndexError`; call sites guard against it, and
the `[]` branch below is unreachable from them.) -/
def abbreviateBacteria (name : String) : String :=
  if name = "" then name
  else
    match pyWords name with
    | [] => name
    | w :: rest => String.mk (joinSpace ((w.headD ' ' :: ['.']) :: rest))

/-- `nltk.ngrams`: all contiguous windows of length `n` (left to right). -/
def ngrams : List α → Nat → List (List α)
  | [], _ => []
  | x :: xs, n => if n ≤ (x :: xs).length then (x :: xs).take n :: ngrams xs n else []

/-- Character offset of the `i`-th whitespace token assuming one space per
separator: `sum(len(w) + 1 for w in words[:i])`. -/
def startOff (words : List (List Char)) (i : Nat) : Nat :=
  ((words.take i).map (fun w => w.length + 1)).sum

/-- The loop body of `fuzzy_find_all`: scan the enumerated n-gram windows,
emitting `(start, end)` for every window that passes the similarity test. -/
def ffaLoop (pat : String) (thr : ℚ) (ab : Bool) (words : List (List Char)) :
    Nat → List (List (List Char)) → List (Nat × Nat)
  | _, [] => []
  | i, g :: gs =>
    let testStr := pyStripPunct (joinSpace g)
    let ratioPass := ratioGeB (String.mk testStr) pat thr
    let abbrevPass :=
      if ab then ratioGeB (String.mk testStr) (abbreviateBacteria pat) thr
      else false
    let rest := ffaLoop pat thr ab words (i + 1) gs
    if ratioPass || abbrevPass then
      (startOff words i, startOff words i + testStr.length) :: rest
    else rest

/-- `fuzzy_find_all` from `utils.py` (identical copy in
`scripts/preannotate.py`): emit `(start, end)` pairs for every
`len(pattern.split())`-token window of `text` whose punctuation-stripped join
is similar enough to `pattern` (or, when `try_abbrev`, to its abbreviated
form). -/
def fuzzyFindAll (text pat : String) (thr : ℚ) (tryAbbrev : Bool) : List (Nat × Nat) :=
  if pyStrip pat.toList = [] then []
  else if text = "" then []
  else
    let words := pyWords text
    ffaLoop pat thr tryAbbrev words 0 (ngrams words (pyWords pat).length)

/-! Spec-side window vocabulary for the claims about `fuzzy_find_all`. -/

/-- Number of token windows scanned by `fuzzy_find_all`. -/
def windowCount (text pat : String) : Nat :=
  (pyWords text).length + 1 - (pyWords pat).length

/-- The `i`-th token window of `text` (joined with single spaces), for windows
of `pattern`'s token count. -/
def windowAt (text pat : String) (i : Nat) : List Char :=
  joinSpace (((pyWords text).drop i).take (pyWords pat).length)

/-- Whether the `i`-th window passes `fuzzy_find_all`'s similarity test. -/
def windowPassB (text pat : String) (thr : ℚ) (ab : Bool) (i : Nat) : Bool :=
  decide (thr ≤ ratio (String.mk (pyStripPunct (windowAt text pat i))) pat) ||
    (if ab then
      decide (thr ≤ ratio (String.mk (pyStripPunct (windowAt text pat i)))
        (abbreviateBacteria pat))
    else false)

/-- The `(start, end)` pair emitted for the `i`-th window. -/
def windowEmit (text pat : String) (i : Nat) : Nat × Nat :=
  (startOff (pyWords text) i,
   startOff (pyWords text) i + (pyStripPunct (windowAt text pat i)).length)


/-! ## Strain designation normalization (`straininfo.py`) -/

/-- Match the regex `(NRRL)(B | B)(\\d+)` at the head of `l`: literal `NRRL`,
then `"B "` (tried first) or `" B"`, then a maximal nonempty digit run.  On
success return the digit run and the remainder after the match. -/
def tryMatch1 : List Char → Option (List Char × List Char)
  | 'N' :: 'R' :: 'R' :: 'L' :: 'B' :: ' ' :: r2 =>
    let ds := r2.takeWhile isAsciiDigit
    if ds.isEmpty then none else some (ds, r2.dropWhile isAsciiDigit)
  | 'N' :: 'R' :: 'R' :: 'L' :: ' ' :: 'B' :: r2 =>
    let ds := r2.takeWhile isAsciiDigit
    if ds.isEmpty then none else some (ds, r2.dropWhile isAsciiDigit)
  | _ => none

/-- `re.subn` for pattern `(NRRL)(B | B)(\\d+)` with replacement
`\\1 B-\\3`: scan left to right, replace non-overlapping matches, count them.
Fuel `≥ l.length` always suffices. -/
def sub1F : Nat → List Char → List Char × Nat
  | 0, l => (l, 0)
  | _ + 1, [] => ([], 0)
  | f + 1, c :: rest =>
    match tryMatch1 (c :: rest) with
    | some (ds, rem) =>
      let p := sub1F f rem
      ('N' :: 'R' :: 'R' :: 'L' :: ' ' :: 'B' :: '-' :: (ds ++ p.1), p.2 + 1)
    | none =>
      let p := sub1F f rest
      (c :: p.1, p.2)

/-- Index of the `[Tt]` character matched by the regex
`([a-zA-Z]+ \\w*\\d+)[Tt]` within the word-character run `ws`: by greedy
backtracking this is the largest `e ≥ 1` with `ws[e] ∈ \x7bT, t\x7d` and
`ws[e-1]` a digit. -/
def lastTIdx (ws : List Char) : Option Nat :=
  ((List.range ws.length).filter fun e =>
    decide (1 ≤ e) && (ws.getD e ' ' == 'T' || ws.getD e ' ' == 't') &&
      isAsciiDigit (ws.getD (e - 1) ' ')).max?

/-- Match the regex `([a-zA-Z]+ \\w*\\d+)[Tt]` at the head of `l`: a maximal
alphabetic run, a space, then word characters ending in digit-then-`T`/`t`.
On success return the captured group and the remainder after the match. -/
def tryMatch2 (l : List Char) : Option (List Char × List Char) :=
  let al := l.takeWhile isAsciiAlpha
  if al.isEmpty then none
  else
    match l.drop al.length with
    | ' ' :: r2 =>
      let ws := r2.takeWhile isWordChar
      match lastTIdx ws with
      | none => none
      | some e => some (al ++ ' ' :: ws.take e, r2.drop (e + 1))
    | _ => none

/-- `re.subn` for pattern `([a-zA-Z]+ \\w*\\d+)[Tt]` with replacement `\\1`
(drop the trailing type-strain marker). -/
def sub2F : Nat → List Char → List Char × Nat
  | 0, l => (l, 0)
  | _ + 1, [] => ([], 0)
  | f + 1, c :: rest =>
    match tryMatch2 (c :: rest) with
    | some (grp, rem) =>
      let p := sub2F f rem
      (grp ++ p.1, p.2 + 1)
    | none =>
      let p := sub2F f rest
      (c :: p.1, p.2)

/-- `apply_substitutions` from `normalize_strain_names`: apply the two regex
substitutions in order and return the rewritten string together with the total
number of substitutions performed. -/
def applySubstitutions (w : String) : String × Nat :=
  let p1 := sub1F w.toList.length w.toList
  let p2 := sub2F p1.1.length p1.1
  (String.mk p2.1, p1.2 + p2.2)

/-- Python `str.strip()` on strings. -/
def pyStripStr (s : String) : String := String.mk (pyStrip s.toList)

/-- Helper for `pySplitChar`: split at every occurrence of `sep`, keeping
empty pieces (Python `str.split(sep)` semantics). -/
def splitSepAux (sep : Char) : List Char → List Char → List (List Char)
  | [], cur => [cur.reverse]
  | c :: rest, cur =>
    if c == sep then cur.reverse :: splitSepAux sep rest []
    else splitSepAux sep rest (c :: cur)

/-- Python `s.split(sep)` for a one-character separator. -/
def pySplitChar (s : String) (sep : Char) : List String :=
  (splitSepAux sep s.toList []).map String.mk

/-- `normalize_strain_names` from `brenda_references/straininfo.py` on a
collection of designations (the single-string overload wraps its argument into
a one-element collection).  Python sets are modelled as `Finset String`. -/
def normalizeStrainNames (strain_names : List String) : Finset String :=
  let standardized : Finset String :=
    strain_names.foldl (fun acc name =>
      let p := applySubstitutions name
      let substrings := pySplitChar p.1 '/' 
      if 1 < substrings.length ∨ 0 < p.2 then
        acc ∪ (substrings.map pyStripStr).toFinset
      else acc) ∅
  strain_names.toFinset ∪ standardized


/-! ## Canonical entity store for bacteria (`docdb.py`) -/

/-- A record of the `bacteria` table: canonical organism name plus synonym
set (stored as a list in TinyDB, with set semantics via `add_synonyms`). -/
structure BacRecord where
  organism : String
  synonyms : Finset String
deriving DecidableEq

/-- The `bacteria` table of `BrendaDocDB`: records in insertion order keyed by
their TinyDB `doc_id`, plus the next id to assign. -/
structure BacStore where
  records : List (Nat × BacRecord)
  nextId : Nat
deriving DecidableEq

/-- The external LPSN interface as used by `docdb.py` (`lpsn_id`,
`lpsn_parent`, `lpsn_synonyms` are deterministic functions of the LPSN data
file). -/
structure Lpsn where
  lpsnId : String → Option Nat
  lpsnParent : Nat → Option (Nat × String)
  lpsnSynonyms : Nat → Finset String

/-- The predicate of `bacteria_by_name`: the query equals the record's
`organism` or belongs to its synonym set. -/
def bacMatches (query : String) (p : Nat × BacRecord) : Bool :=
  decide (p.2.organism = query) || decide (query ∈ p.2.synonyms)

/-- `bacteria_by_name`: first record (in table order) whose organism name or
synonym set matches `query`, with its `doc_id`. -/
def bacteriaByName (st : BacStore) (query : String) : Option (Nat × BacRecord) :=
  st.records.find? (bacMatches query)

/-- `add_bac_synonyms` / `add_synonyms` on the bacteria table: union `syns`
into the synonym set of the record at `docId`. -/
def addBacSynonyms (st : BacStore) (docId : Nat) (syns : Finset String) : BacStore :=
  { st with
    records := st.records.map fun p =>
      if p.1 = docId then (p.1, { p.2 with synonyms := p.2.synonyms ∪ syns }) else p }

/-- `__add_bacteria_record`: insert a new record and return its new id. -/
def addBacteriaRecord (st : BacStore) (organism : String) (synonyms : Finset String) :
    Nat × BacStore :=
  (st.nextId,
   { records := st.records ++ [(st.nextId, ⟨organism, synonyms⟩)], nextId := st.nextId + 1 })

/-- `insert_bacteria_record` from `docdb.py`: return the id of a matching
record if one exists (store unchanged); otherwise resolve `query` through the
LPSN interface, preferring to merge into an existing record for the parent's
canonical name, and insert a new record otherwise.  (`if _lpsn_id:` is Python
truthiness, false for both `None` and `0`.) -/
def insertBacteriaRecord (env : Lpsn) (st : BacStore) (query : String) : Nat × BacStore :=
  match bacteriaByName st query with
  | some m => (m.1, st)
  | none =>
    match env.lpsnId query with
    | some lid =>
      if lid ≠ 0 then
        match env.lpsnParent lid with
        | some pl =>
          match bacteriaByName st pl.2 with
          | some pm => (pm.1, addBacSynonyms st pm.1 {query})
          | none =>
            addBacteriaRecord st query
              (env.lpsnSynonyms lid ∪ env.lpsnSynonyms pl.1 ∪ {query})
        | none => addBacteriaRecord st query (env.lpsnSynonyms lid)
      else addBacteriaRecord st query ∅
    | none => addBacteriaRecord st query ∅

/-- An LPSN environment with no data, for concrete witnesses. -/
def envTrivial : Lpsn := ⟨fun _ => none, fun _ => none, fun _ => ∅⟩

/-- A one-record bacteria store whose record has organism `"X"` and an empty
synonym set, for concrete witnesses and counterexamples. -/
def stX : BacStore := ⟨[(1, ⟨"X", ∅⟩)], 2⟩


/-! ## LPSN interface (`lpsn_interface.py`) -/

/-- A row of the LPSN data table (after `fillna("")`, a missing `record_lnk`
is modelled as `none`). -/
structure LpsnRecord where
  record_no : Nat
  record_lnk : Option Nat
  genus_name : String
  sp_epithet : String
  subsp_epithet : String
deriving DecidableEq

/-- `lpsn_name`: assemble a species name from a record
(`" ".join((genus_name, sp_epithet, subs_epithet)).strip()` with the
subspecies epithet prefixed by `"subsp. "` when present). -/
def lpsnName (r : LpsnRecord) : String :=
  String.mk (pyStrip (r.genus_name.toList ++ ' ' :: r.sp_epithet.toList ++ ' ' ::
    (if r.subsp_epithet = "" then [] else ("subsp. " ++ r.subsp_epithet).toList)))

/-- The result of `name_parts`. -/
structure NameParts where
  genus_name : String
  sp_epithet : String
  subsp_epithet : String
  strain : String
deriving DecidableEq

/-- Python `str.replace`: replace all non-overlapping occurrences of `pat`
left to right.  Fuel `≥ l.length` always suffices. -/
def replaceAllF : Nat → List Char → List Char → List Char → List Char
  | 0, _, _, l => l
  | f + 1, pat, rep, l =>
    match l with
    | [] => []
    | c :: rest =>
      if pat ≠ [] ∧ l.take pat.length = pat then
        rep ++ replaceAllF f pat rep (l.drop pat.length)
      else c :: replaceAllF f pat rep rest

/-- Python `s.replace(pat, rep)` on strings. -/
def pyReplace (s pat rep : String) : String :=
  String.mk (replaceAllF s.toList.length pat.toList rep.toList s.toList)

/-- Assignment `out[keys[index]] = term` of `name_parts`
(`keys = ("genus_name", "sp_epithet", "subsp_epithet", "strain")`). -/
def npSetKey (out : NameParts) (idx : Nat) (t : String) : NameParts :=
  match idx with
  | 0 => { out with genus_name := t }
  | 1 => { out with sp_epithet := t }
  | 2 => { out with subsp_epithet := t }
  | _ => { out with strain := t }

/-- The loop of `name_parts` over the first four terms: a term whose tail has
any character outside `string.ascii_lowercase` becomes the `strain` component
and stops the loop. -/
def npLoop : List (List Char) → Nat → NameParts → NameParts
  | [], _, out => out
  | t :: rest, idx, out =>
    if (t.drop 1).any fun c => !(isAsciiLower c) then { out with strain := String.mk t }
    else npLoop rest (idx + 1) (npSetKey out idx (String.mk t))

/-- `name_parts` from `lpsn_interface.py`: remove the taxonomic infix markers,
split on whitespace and distribute the first four terms over
genus/species/subspecies/strain. -/
def nameParts (name : String) : NameParts :=
  npLoop
    ((pyWords (pyReplace (pyReplace (pyReplace (pyReplace (pyReplace (pyReplace
      name "subsp." "") "ssp." "") "sp." "") "pv." "") "serovar" "") "serotype" "")).take 4)
    0 ⟨"", "", "", ""⟩

/-- `lpsn_id`: record number of the first row whose three name-component
columns equal the parsed components of `name`; `none` models the caught
`IndexError` (logged, not raised). -/
def lpsnIdT (tbl : List LpsnRecord) (name : String) : Option Nat :=
  (tbl.find? fun r =>
      decide (r.genus_name = (nameParts name).genus_name) &&
      decide (r.sp_epithet = (nameParts name).sp_epithet) &&
      decide (r.subsp_epithet = (nameParts name).subsp_epithet)).map
    fun r => r.record_no

/-- `lpsn_parent`: the record number and assembled name of the row that `_id`
links to; every `IndexError` (absent id, blank link, dangling link) is caught
and returned as `none`. -/
def lpsnParentT (tbl : List LpsnRecord) (i : Nat) : Option (Nat × String) :=
  match tbl.find? fun r => decide (r.record_no = i) with
  | none => none
  | some r =>
    match r.record_lnk with
    | none => none
    | some pid =>
      match tbl.find? fun q => decide (q.record_no = pid) with
      | none => none
      | some q => some (q.record_no, lpsnName q)

/-- `lpsn_synonyms` on an integer record number.  The access
`...["record_lnk"].values[0]` raises an *uncaught* `IndexError` when no row
has `record_no == query`; that exception is modelled as `none`, every normal
return as `some`. -/
def lpsnSynonymsNat (tbl : List LpsnRecord) (query : Nat) : Option (Finset String) :=
  match tbl.filter fun r => decide (r.record_no = query) with
  | [] => none
  | r :: _ =>
    let synRecords := tbl.filter fun s =>
      decide (s.record_lnk = some query) ||
        (match r.record_lnk with
         | some k => decide (s.record_no = k)
         | none => false)
    if synRecords.isEmpty then some ∅
    else some (synRecords.map lpsnName).toFinset

/-- `lpsn_synonyms` on a species name: resolve through `lpsn_id` first,
returning the empty set when the id is `None` or `0` (Python truthiness). -/
def lpsnSynonymsStr (tbl : List LpsnRecord) (query : String) : Option (Finset String) :=
  match lpsnIdT tbl query with
  | some i => if i ≠ 0 then lpsnSynonymsNat tbl i else some ∅
  | none => some ∅


/-! ## Strain store and the taxonomy reclassifier (`scripts/fix_taxonomy.py`) -/

/-- A record of the `strains` table: optional taxon name, culture-collection
strain numbers, free-text designations. -/
structure StrainRec where
  taxonName : Option String
  cultures : List String
  designations : Finset String
deriving DecidableEq

/-- The `strains` table of `BrendaDocDB`. -/
structure StrainStore where
  records : List (Nat × StrainRec)
  nextId : Nat
deriving DecidableEq

/-- The predicate of `strain_by_designation`: match by taxon name, by any
culture strain number, or by any designation. -/
def strainMatches (query : String) (p : Nat × StrainRec) : Bool :=
  decide (p.2.taxonName = some query) || decide (query ∈ p.2.cultures) ||
    decide (query ∈ p.2.designations)

/-- `strain_by_designation`: first matching strain record with its id. -/
def strainByDesignation (st : StrainStore) (query : String) : Option (Nat × StrainRec) :=
  st.records.find? (strainMatches query)

/-- `add_strain_synonyms`: union `syns` into the designation set of the record
at `docId`. -/
def addStrainSynonyms (st : StrainStore) (docId : Nat) (syns : Finset String) : StrainStore :=
  { st with
    records := st.records.map fun p =>
      if p.1 = docId then (p.1, { p.2 with designations := p.2.designations ∪ syns }) else p }

/-- `docdb.insert` on the strains table: append a record under a fresh id. -/
def insertStrainRecord (st : StrainStore) (rec : StrainRec) : Nat × StrainStore :=
  (st.nextId, { records := st.records ++ [(st.nextId, rec)], nextId := st.nextId + 1 })

/-- A document as manipulated by `fix_taxonomy`: the unclassified
`other_organisms` bucket, the `bacteria` id-to-name mapping and the `strains`
id list (mappings as insertion-ordered association lists). -/
structure TaxDoc where
  other_organisms : List (Nat × String)
  bacteria : List (Nat × String)
  strains : List Nat
deriving DecidableEq

/-- The external collaborators of `fix_taxonomy`: the `taxonomy.ncbitax`
classifiers and strain-name decomposition (components are `none` for
Python-falsy values), the LPSN interface used by `insert_bacteria_record`,
and the StrainInfo model retrieval used for unmatched strain names. -/
structure TaxEnv where
  isBacterialStrain : String → Bool
  isBacteria : String → Bool
  decompose : String → Option (Option String × Option String)
  lpsn : Lpsn
  retrieveStrain : String → StrainRec

/-- Python-set insertion, modelled with first-occurrence order. -/
def addUnique {α : Type} [DecidableEq α] (xs : List α) (x : α) : List α :=
  if x ∈ xs then xs else xs ++ [x]

/-- Python dict update `m[k] = v`: replace the value at an existing key,
append otherwise. -/
def assocUpsert (m : List (Nat × String)) (k : Nat) (v : String) : List (Nat × String) :=
  if m.any fun p => p.1 == k then m.map fun p => if p.1 = k then (k, v) else p
  else m ++ [(k, v)]

/-- The classification loop of `fix_taxonomy` over `other_organisms`: collect
the mention ids to delete and the (deduplicated) queued bacteria and strain
names. -/
def classifyOrgs (env : TaxEnv) (orgs : List (Nat × String)) :
    List Nat × List String × List String :=
  orgs.foldl
    (fun acc p =>
      if env.isBacterialStrain p.2 then
        let del := addUnique acc.1 p.1
        match env.decompose p.2 with
        | some sp =>
          let bacs := match sp.1 with
            | some species => addUnique acc.2.1 species
            | none => acc.2.1
          let strs := match sp.2 with
            | some strain => addUnique acc.2.2 strain
            | none => acc.2.2
          (del, bacs, strs)
        | none => (del, acc.2.1, addUnique acc.2.2 p.2)
      else if env.isBacteria p.2 then
        (addUnique acc.1 p.1, addUnique acc.2.1 p.2, acc.2.2)
      else acc)
    ([], [], [])

/-- `update_doc_bacteria`: only when *no* bacteria record matches `bacname` is
a record inserted and the document's `bacteria` mapping extended; otherwise
nothing happens. -/
def updateDocBacteria (env : TaxEnv) (bst : BacStore) (doc : TaxDoc) (bacname : String) :
    BacStore × TaxDoc :=
  match bacteriaByName bst bacname with
  | some _ => (bst, doc)
  | none =>
    let p := insertBacteriaRecord env.lpsn bst bacname
    (p.2, { doc with bacteria := assocUpsert doc.bacteria p.1 bacname })

/-- `update_doc_strain`: merge into a matching strain record (document left
untouched), or insert a freshly retrieved record and append its id to the
document's `strains`. -/
def updateDocStrain (env : TaxEnv) (sst : StrainStore) (doc : TaxDoc) (strainname : String) :
    StrainStore × TaxDoc :=
  match strainByDesignation sst strainname with
  | some m => (addStrainSynonyms sst m.1 {strainname}, doc)
  | none =>
    let p := insertStrainRecord sst (env.retrieveStrain strainname)
    (p.2, { doc with strains := doc.strains ++ [p.1] })

/-- One `fix_taxonomy` pass over a single document (the body of its loop over
`docdb.references`): classify the unclassified mentions, apply the queued
bacteria and strain merges, then remove every reclassified mention id from
`other_organisms`.  The returned document is the state as persisted by the
`update_doc_*` writes combined with the final `other_organisms` update. -/
def fixTaxonomyDoc (env : TaxEnv) (bst : BacStore) (sst : StrainStore) (doc : TaxDoc) :
    BacStore × StrainStore × TaxDoc :=
  let c := classifyOrgs env doc.other_organisms
  let pb := c.2.1.foldl (fun acc name => updateDocBacteria env acc.1 acc.2 name) (bst, doc)
  let ps := c.2.2.foldl (fun acc name => updateDocStrain env acc.1 acc.2 name) (sst, pb.2)
  (pb.1, ps.1,
   { ps.2 with other_organisms := doc.other_organisms.filter fun p => decide (p.1 ∉ c.1) })

/-- A taxonomy environment classifying exactly the name `"X"` as a bacteria
species, for the concrete failing input of claim C3. -/
def envClassifyX : TaxEnv :=
  ⟨fun _ => false, fun s => s == "X", fun _ => none, envTrivial, fun s => ⟨none, [], {s}⟩⟩

/-! ## The fuzzy span annotator (`src/scripts/preannotate.py`) -/

/-- The entity-category labels (`RDFClass`), in declaration order
`d3o:Bacteria`, `d3o:Enzyme`, `d3o:Strain`. -/
inductive RDFLabel where
  | bacteria
  | enzyme
  | strain
deriving DecidableEq

/-- `EntityMarkup` from `brenda_types.py`: an immutable span annotation
(`stop` embeds the source's `end` field, a reserved word here).  Set
semantics via `Finset`. -/
structure EntityMarkup where
  start : Nat
  stop : Nat
  entity_id : Nat
  label : RDFLabel
deriving DecidableEq

/-- An enzyme record as read by the annotator. -/
structure EnzymeRec where
  recommended_name : String
  synonyms : Finset String
deriving DecidableEq

/-- The document database as read (never written) by `mark_entities`:
per-category lookup by record id. -/
structure AnnDb where
  enzymes : Nat → Option EnzymeRec
  bacteria : Nat → Option BacRecord
  strains : Nat → Option StrainRec

/-- A document as annotated by `mark_entities` (`modified` embeds the
timestamp set by `model_copy`). -/
structure AnnDoc where
  abstract : Option String
  enzymes : List Nat
  bacteria : List (Nat × String)
  strains : List Nat
  entity_spans : Finset EntityMarkup
  modified : Option Nat

/-- The spans contributed by one entity name: one `EntityMarkup` per
`fuzzy_find_all` match. -/
def spansForName (a : String) (tryAb : Bool) (eid : Nat) (lab : RDFLabel)
    (name : String) : Finset EntityMarkup :=
  ((fuzzyFindAll a name 83 tryAb).map fun p => ⟨p.1, p.2, eid, lab⟩).toFinset

/-- The union of the spans of all names of one entity (`frozenset.union`). -/
def spansForNames (a : String) (tryAb : Bool) (eid : Nat) (lab : RDFLabel)
    (names : Finset String) : Finset EntityMarkup :=
  names.biUnion fun name => spansForName a tryAb eid lab name

/-- All new spans computed by `mark_entities` for abstract `a`: per category,
per entity id on the document, the spans of the entity's name set
(bacteria names additionally matched in abbreviated form). -/
def newSpans (db : AnnDb) (a : String) (doc : AnnDoc) : Finset EntityMarkup :=
  (doc.bacteria.foldl (fun acc p =>
      match db.bacteria p.1 with
      | none => acc
      | some ent =>
        acc ∪ spansForNames a true p.1 RDFLabel.bacteria ({ent.organism} ∪ ent.synonyms)) ∅) ∪
  (doc.enzymes.foldl (fun acc i =>
      match db.enzymes i with
      | none => acc
      | some ent =>
        acc ∪ spansForNames a false i RDFLabel.enzyme
          ({ent.recommended_name} ∪ ent.synonyms)) ∅) ∪
  (doc.strains.foldl (fun acc i =>
      match db.strains i with
      | none => acc
      | some ent =>
        acc ∪ spansForNames a false i RDFLabel.strain
          (ent.designations ∪ ent.cultures.toFinset)) ∅)

/-- `mark_entities` from `src/scripts/preannotate.py`: no-op when the abstract
is unset or empty; otherwise union the newly found spans into `entity_spans`
and refresh the modification timestamp.  The store is only read. -/
def markEntities (db : AnnDb) (now : Nat) (doc : AnnDoc) : AnnDoc :=
  match doc.abstract with
  | none => doc
  | some a =>
    if a = "" then doc
    else
      { doc with
        entity_spans := doc.entity_spans ∪ newSpans db a doc,
        modified := some now }

/-- An empty annotator database, for concrete witnesses. -/
def annDb0 : AnnDb := ⟨fun _ => none, fun _ => none, fun _ => none⟩

/-- A document without an abstract, for concrete witnesses. -/
def annDoc0 : AnnDoc := ⟨none, [], [], [], ∅, none⟩

/-! ## Properties of the similarity primitive -/

theorem indelDistF_le (f : Nat) : ∀ (xs ys : List Char),
    indelDistF f xs ys ≤ xs.length + ys.length := by
  induction f with
  | zero => intro xs ys; cases xs <;> cases ys <;> simp [indelDistF]
  | succ f ih =>
    intro xs ys
    cases xs with
    | nil => simp [indelDistF]
    | cons x xs =>
      cases ys with
      | nil => simp [indelDistF]
      | cons y ys =>
        simp only [indelDistF, List.length_cons]
        by_cases h : x = y
        · rw [if_pos h]
          have := ih xs ys
          omega
        · rw [if_neg h]
          have h1 := ih (x :: xs) ys
          have h2 := ih xs (y :: ys)
          simp only [List.length_cons] at h1 h2
          omega

theorem indelDistF_symm (f : Nat) : ∀ (xs ys : List Char),
    xs.length + ys.length ≤ f → indelDistF f xs ys = indelDistF f ys xs := by
  induction f with
  | zero =>
    intro xs ys h
    have hx : xs = [] := List.length_eq_zero.mp (by omega)
    have hy : ys = [] := List.length_eq_zero.mp (by omega)
    simp [hx, hy]
  | succ f ih =>
    intro xs ys h
    cases xs with
    | nil => cases ys <;> simp [indelDistF]
    | cons x xs =>
      cases ys with
      | nil => simp [indelDistF]
      | cons y ys =>
        simp only [List.length_cons] at h
        simp only [indelDistF]
        by_cases hxy : x = y
        · subst hxy
          rw [if_pos rfl, if_pos rfl]
          exact ih xs ys (by omega)
        · have hyx : ¬ y = x := fun hc => hxy hc.symm
          rw [if_neg hxy, if_neg hyx]
          rw [ih (x :: xs) ys (by simp only [List.length_cons]; omega),
            ih xs (y :: ys) (by simp only [List.length_cons]; omega),
            Nat.min_comm]

theorem indelDistF_add_lcsF (f : Nat) : ∀ (xs ys : List Char),
    xs.length + ys.length ≤ f →
    indelDistF f xs ys + 2 * lcsF f xs ys = xs.length + ys.length := by
  induction f with
  | zero =>
    intro xs ys h
    have hx : xs = [] := List.length_eq_zero.mp (by omega)
    have hy : ys = [] := List.length_eq_zero.mp (by omega)
    simp [hx, hy, indelDistF, lcsF]
  | succ f ih =>
    intro xs ys h
    cases xs with
    | nil => cases ys <;> simp [indelDistF, lcsF]
    | cons x xs =>
      cases ys with
      | nil => simp [indelDistF, lcsF]
      | cons y ys =>
        simp only [List.length_cons] at h
        simp only [indelDistF, lcsF, List.length_cons]
        by_cases hxy : x = y
        · rw [if_pos hxy, if_pos hxy]
          have := ih xs ys (by omega)
          omega
        · rw [if_neg hxy, if_neg hxy]
          have h1 := ih (x :: xs) ys (by simp only [List.length_cons]; omega)
          have h2 := ih xs (y :: ys) (by simp only [List.length_cons]; omega)
          simp only [List.length_cons] at h1 h2
          omega

theorem indelDist_symm (a b : List Char) : indelDist a b = indelDist b a := by
  unfold indelDist
  rw [indelDistF_symm (a.length + b.length) a b (le_refl _), Nat.add_comm]

theorem indelDist_le (a b : List Char) : indelDist a b ≤ a.length + b.length :=
  indelDistF_le _ a b

theorem indelDist_add_lcs (a b : List Char) :
    indelDist a b + 2 * lcs a b = a.length + b.length :=
  indelDistF_add_lcsF _ a b (le_refl _)

theorem fuzzRatioL_symm (a b : List Char) : fuzzRatioL a b = fuzzRatioL b a := by
  unfold fuzzRatioL
  by_cases h0 : a.length + b.length = 0
  · rw [if_pos h0, if_pos (by omega)]
  · rw [if_neg h0, if_neg (by omega)]
    rw [indelDist_symm]
    have h : (a.length : ℚ) + b.length = (b.length : ℚ) + a.length := by ring
    rw [h]

theorem fuzzRatioL_nonneg (a b : List Char) : 0 ≤ fuzzRatioL a b := by
  unfold fuzzRatioL
  by_cases h0 : a.length + b.length = 0
  · rw [if_pos h0]; norm_num
  · rw [if_neg h0]
    have hpos : (0 : ℚ) < (a.length : ℚ) + b.length := by
      have h : 0 < a.length + b.length := Nat.pos_of_ne_zero h0
      exact_mod_cast h
    have hd : (indelDist a b : ℚ) ≤ (a.length : ℚ) + b.length := by
      exact_mod_cast indelDist_le a b
    have hdiv : (indelDist a b : ℚ) / ((a.length : ℚ) + b.length) ≤ 1 := by
      rw [div_le_one hpos]; exact hd
    linarith

theorem fuzzRatioL_le_100 (a b : List Char) : fuzzRatioL a b ≤ 100 := by
  unfold fuzzRatioL
  by_cases h0 : a.length + b.length = 0
  · rw [if_pos h0]
  · rw [if_neg h0]
    have hpos : (0 : ℚ) < (a.length : ℚ) + b.length := by
      have h : 0 < a.length + b.length := Nat.pos_of_ne_zero h0
      exact_mod_cast h
    have hd0 : (0 : ℚ) ≤ (indelDist a b : ℚ) := by positivity
    have hdiv : (0 : ℚ) ≤ (indelDist a b : ℚ) / ((a.length : ℚ) + b.length) :=
      div_nonneg hd0 hpos.le
    linarith

theorem fuzzRatioL_eq_normIndelSimL (a b : List Char) :
    fuzzRatioL a b = normIndelSimL a b := by
  unfold fuzzRatioL normIndelSimL
  by_cases h0 : a.length + b.length = 0
  · rw [if_pos h0, if_pos h0]
  · rw [if_neg h0, if_neg h0]
    have hpos : (0 : ℚ) < (a.length : ℚ) + b.length := by
      have h : 0 < a.length + b.length := Nat.pos_of_ne_zero h0
      exact_mod_cast h
    have hk : (indelDist a b : ℚ) + 2 * (lcs a b : ℚ) = (a.length : ℚ) + b.length := by
      exact_mod_cast indelDist_add_lcs a b
    have hne : ((a.length : ℚ) + b.length) ≠ 0 := ne_of_gt hpos
    field_simp
    linarith

/-- Claim C9: the similarity primitive `ratio` is symmetric, bounded in
`[0, 100]`, and equals the average of the normalized indel similarity (percent
of matched characters after optimal alignment, `normIndelSim`) of the raw
strings and of the lower-cased strings. -/
theorem ratio_symm_bounded_avg (a b : String) :
    ratio a b = ratio b a ∧ 0 ≤ ratio a b ∧ ratio a b ≤ 100 ∧
      ratio a b = (normIndelSim (lowerS a) (lowerS b) + normIndelSim a b) / 2 := by
  refine ⟨?_, ?_, ?_, ?_⟩
  · unfold ratio fuzzRatio
    rw [fuzzRatioL_symm (lowerS a).toList (lowerS b).toList,
      fuzzRatioL_symm a.toList b.toList]
  · unfold ratio fuzzRatio
    have h1 := fuzzRatioL_nonneg (lowerS a).toList (lowerS b).toList
    have h2 := fuzzRatioL_nonneg a.toList b.toList
    linarith
  · unfold ratio fuzzRatio
    have h1 := fuzzRatioL_le_100 (lowerS a).toList (lowerS b).toList
    have h2 := fuzzRatioL_le_100 a.toList b.toList
    linarith
  · unfold ratio fuzzRatio normIndelSim
    rw [fuzzRatioL_eq_normIndelSimL (lowerS a).toList (lowerS b).toList,
      fuzzRatioL_eq_normIndelSimL a.toList b.toList]

/-! ## Characterization of `fuzzy_find_all` -/

theorem ngrams_eq_map_range {α : Type} (n : Nat) (hn : 1 ≤ n) :
    ∀ (xs : List α),
      ngrams xs n = (List.range (xs.length + 1 - n)).map fun i => (xs.drop i).take n := by
  intro xs
  induction xs with
  | nil =>
    have h0 : ([] : List α).length + 1 - n = 0 := by simp; omega
    rw [h0]
    simp [ngrams]
  | cons x xs ih =>
    simp only [ngrams, List.length_cons]
    by_cases h : n ≤ xs.length + 1
    · rw [if_pos h]
      have hlen : xs.length + 1 + 1 - n = (xs.length + 1 - n) + 1 := by omega
      rw [hlen, List.range_succ_eq_map, List.map_cons, List.map_map]
      refine congrArg₂ _ ?_ ?_
      · simp
      · rw [ih]
        apply List.map_congr_left
        intro a _
        simp [List.drop_succ_cons]
    · rw [if_neg h]
      have h0 : xs.length + 1 + 1 - n = 0 := by omega
      rw [h0]
      simp

theorem wordsAux_ne_nil_of_cur (l : List Char) :
    ∀ cur, cur ≠ [] → wordsAux l cur ≠ [] := by
  induction l with
  | nil =>
    intro cur h
    simp only [wordsAux]
    rw [if_neg (by simpa using h)]
    simp
  | cons c rest ih =>
    intro cur h
    simp only [wordsAux]
    by_cases hs : pyIsSpace c
    · rw [if_pos hs, if_neg (by simpa using h)]
      simp
    · rw [if_neg hs]
      exact ih (c :: cur) (by simp)

theorem wordsAux_ne_nil (l : List Char) :
    ∀ cur, (∃ c ∈ l, pyIsSpace c = false) → wordsAux l cur ≠ [] := by
  induction l with
  | nil => intro cur h; obtain ⟨c, hc, _⟩ := h; exact absurd hc (by simp)
  | cons c rest ih =>
    intro cur h
    simp only [wordsAux]
    by_cases hs : pyIsSpace c
    · rw [if_pos hs]
      have hrest : ∃ d ∈ rest, pyIsSpace d = false := by
        obtain ⟨d, hd, hdp⟩ := h
        rcases List.mem_cons.mp hd with rfl | hmem
        · rw [hs] at hdp; exact absurd hdp (by simp)
        · exact ⟨d, hmem, hdp⟩
      by_cases hc : cur.isEmpty
      · rw [if_pos hc]; exact ih [] hrest
      · rw [if_neg hc]; simp
    · rw [if_neg hs]
      exact wordsAux_ne_nil_of_cur rest (c :: cur) (by simp)

theorem pyStrip_ne_nil_exists (l : List Char) (h : pyStrip l ≠ []) :
    ∃ c ∈ l, pyIsSpace c = false := by
  have h1 : l.dropWhile pyIsSpace ≠ [] := by
    intro hc
    apply h
    unfold pyStrip
    rw [hc]
    simp [List.rdropWhile]
  rw [Ne, List.dropWhile_eq_nil_iff] at h1
  push_neg at h1
  obtain ⟨c, hc, hcp⟩ := h1
  exact ⟨c, hc, by simpa using hcp⟩

theorem pyWords_ne_nil (pat : String) (h : pyStrip pat.toList ≠ []) :
    pyWords pat ≠ [] :=
  wordsAux_ne_nil pat.toList [] (pyStrip_ne_nil_exists pat.toList h)

theorem lowerS_toList (x : String) : (lowerS x).toList = x.toList.map Char.toLower := rfl

theorem rat_le_div_iff (q : ℚ) (A B : ℤ) (hB : 0 < B) :
    q ≤ (A : ℚ) / (B : ℚ) ↔ q.num * B ≤ A * q.den := by
  have hBQ : (0 : ℚ) < (B : ℚ) := by exact_mod_cast hB
  have hden : (0 : ℚ) < (q.den : ℚ) := by exact_mod_cast q.pos
  nth_rewrite 1 [← Rat.num_div_den q]
  rw [div_le_div_iff hden hBQ]
  constructor <;> intro hh <;> exact_mod_cast hh

theorem ratioL_eq_div (a b : List Char) (h : a.length + b.length ≠ 0) :
    (fuzzRatioL (a.map Char.toLower) (b.map Char.toLower) + fuzzRatioL a b) / 2 =
      ((100 * ((a.length + b.length : ℕ) : ℚ)) -
        50 * ((indelDist (a.map Char.toLower) (b.map Char.toLower) : ℚ) +
          (indelDist a b : ℚ))) /
        ((a.length + b.length : ℕ) : ℚ) := by
  unfold fuzzRatioL
  rw [List.length_map, List.length_map]
  rw [if_neg h, if_neg h]
  have hT : ((a.length + b.length : ℕ) : ℚ) ≠ 0 := by exact_mod_cast h
  push_cast at hT ⊢
  field_simp
  ring

theorem ratioGeB_eq_decide (x y : String) (thr : ℚ) :
    ratioGeB x y thr = decide (thr ≤ ratio x y) := by
  unfold ratioGeB ratio fuzzRatio
  rw [lowerS_toList, lowerS_toList]
  generalize x.toList = a
  generalize y.toList = b
  by_cases h0 : a.length + b.length = 0
  · rw [if_pos h0]
    have hx : a = [] := List.length_eq_zero.mp (by omega)
    have hy : b = [] := List.length_eq_zero.mp (by omega)
    subst hx
    subst hy
    have hr : ((fuzzRatioL (List.map Char.toLower []) (List.map Char.toLower []) +
        fuzzRatioL [] []) / 2 : ℚ) = 100 := by
      norm_num [fuzzRatioL]
    rw [hr]
    have h1 := rat_le_div_iff thr 100 1 one_pos
    have h100 : ((100 : ℤ) : ℚ) / ((1 : ℤ) : ℚ) = (100 : ℚ) := by norm_num
    rw [h100, mul_one] at h1
    exact decide_eq_decide.mpr h1.symm
  · rw [if_neg h0]
    rw [ratioL_eq_div a b h0]
    have hT : (0 : ℤ) < ((a.length + b.length : ℕ) : ℤ) := by
      exact_mod_cast Nat.pos_of_ne_zero h0
    have h2 := rat_le_div_iff thr
      (100 * ((a.length + b.length : ℕ) : ℤ) -
        50 * ((indelDist (a.map Char.toLower) (b.map Char.toLower) : ℤ) +
          (indelDist a b : ℤ)))
      ((a.length + b.length : ℕ) : ℤ) hT
    have hcast : (((100 * ((a.length + b.length : ℕ) : ℤ) -
        50 * ((indelDist (a.map Char.toLower) (b.map Char.toLower) : ℤ) +
          (indelDist a b : ℤ))) : ℤ) : ℚ) /
          ((((a.length + b.length : ℕ) : ℤ)) : ℚ) =
        ((100 * ((a.length + b.length : ℕ) : ℚ)) -
          50 * ((indelDist (a.map Char.toLower) (b.map Char.toLower) : ℚ) +
            (indelDist a b : ℚ))) /
          ((a.length + b.length : ℕ) : ℚ) := by
      push_cast
      ring
    rw [hcast] at h2
    exact decide_eq_decide.mpr h2.symm

theorem ffaLoop_spec (text pat : String) (thr : ℚ) (ab : Bool) :
    ∀ (k i : Nat),
      ffaLoop pat thr ab (pyWords text) i
          ((List.range' i k).map fun j => ((pyWords text).drop j).take (pyWords pat).length)
        = ((List.range' i k).filter (windowPassB text pat thr ab)).map (windowEmit text pat) := by
  intro k
  induction k with
  | zero => intro i; simp [ffaLoop]
  | succ k ih =>
    intro i
    rw [List.range'_succ]
    simp only [List.map_cons, List.filter_cons, ffaLoop]
    have hpass :
        (ratioGeB
            (String.mk (pyStripPunct (joinSpace (((pyWords text).drop i).take (pyWords pat).length))))
            pat thr ||
          (if ab then
            ratioGeB
              (String.mk (pyStripPunct (joinSpace (((pyWords text).drop i).take (pyWords pat).length))))
              (abbreviateBacteria pat) thr
          else false)) = windowPassB text pat thr ab i := by
      unfold windowPassB windowAt
      rw [ratioGeB_eq_decide, ratioGeB_eq_decide]
    rw [hpass]
    cases hw : windowPassB text pat thr ab i
    · simp only [Bool.false_eq_true, if_false]
      exact ih (i + 1)
    · simp only [if_true, List.map_cons]
      refine congrArg₂ _ rfl ?_
      exact ih (i + 1)

theorem ffa_char (text pat : String) (thr : ℚ) (ab : Bool) :
    fuzzyFindAll text pat thr ab =
      if pyStrip pat.toList = [] then []
      else ((List.range (windowCount text pat)).filter (windowPassB text pat thr ab)).map
        (windowEmit text pat) := by
  unfold fuzzyFindAll
  by_cases hp : pyStrip pat.toList = []
  · rw [if_pos hp, if_pos hp]
  · rw [if_neg hp, if_neg hp]
    have hn : 1 ≤ (pyWords pat).length := by
      have h := pyWords_ne_nil pat hp
      cases hpw : pyWords pat with
      | nil => exact absurd hpw h
      | cons a l => simp
    by_cases ht : text = ""
    · rw [if_pos ht]
      have hw : pyWords text = [] := by rw [ht]; rfl
      unfold windowCount
      rw [hw]
      have h0 : ([] : List (List Char)).length + 1 - (pyWords pat).length = 0 := by
        simp; omega
      rw [h0]
      simp
    · rw [if_neg ht]
      show ffaLoop pat thr ab (pyWords text) 0 (ngrams (pyWords text) (pyWords pat).length) = _
      unfold windowCount
      rw [ngrams_eq_map_range _ hn, List.range_eq_range']
      exact ffaLoop_spec text pat thr ab _ 0

/-- Claim C6: `fuzzy_find_all` emits a match exactly for those contiguous
whitespace-token windows whose token count equals the pattern's token count
and whose punctuation-stripped join is similar enough (at least `thr`) to the
pattern — or, when the bacteria-abbreviation option is on, to the abbreviated
pattern; an empty or whitespace-only pattern yields no matches. -/
theorem fuzzy_find_all_matches_iff_window_passes (text pat : String) (thr : ℚ) (ab : Bool) :
    fuzzyFindAll text pat thr ab =
      if pyStrip pat.toList = [] then []
      else ((List.range (windowCount text pat)).filter (windowPassB text pat thr ab)).map
        (windowEmit text pat) :=
  ffa_char text pat thr ab

theorem startOff_mono (w : List (List Char)) {i j : Nat} (hij : i ≤ j) :
    startOff w i ≤ startOff w j := by
  unfold startOff
  have h : w.take i = (w.take j).take i := by rw [List.take_take, Nat.min_eq_left hij]
  rw [h]
  set l := w.take j with hl
  obtain ⟨t, ht⟩ := List.take_prefix i l
  conv_rhs => rw [← ht]
  rw [List.map_append, List.sum_append]
  exact Nat.le_add_right _ _

/-- Claim C10: the matches of `fuzzy_find_all` are ordered by nondecreasing
start offset, and every returned pair satisfies `0 ≤ start ≤ end` with
`end - start` equal to the length of the punctuation-stripped window. -/
theorem fuzzy_find_all_sorted_and_span_lengths (text pat : String) (thr : ℚ) (ab : Bool) :
    (fuzzyFindAll text pat thr ab).Pairwise (fun p q => p.1 ≤ q.1) ∧
      ∀ p ∈ fuzzyFindAll text pat thr ab,
        0 ≤ p.1 ∧ p.1 ≤ p.2 ∧
          ∃ i < windowCount text pat,
            p.1 = startOff (pyWords text) i ∧
            p.2 - p.1 = (pyStripPunct (windowAt text pat i)).length := by
  rw [ffa_char]
  by_cases hp : pyStrip pat.toList = []
  · rw [if_pos hp]
    simp
  · rw [if_neg hp]
    constructor
    · refine List.pairwise_map.mpr ?_
      have h1 : (List.range (windowCount text pat)).Pairwise (· < ·) :=
        List.pairwise_lt_range _
      have h2 := h1.filter (windowPassB text pat thr ab)
      exact h2.imp fun hab => startOff_mono (pyWords text) (Nat.le_of_lt hab)
    · intro p hpmem
      obtain ⟨i, hifil, rfl⟩ := List.mem_map.mp hpmem
      have hic : i < windowCount text pat :=
        List.mem_range.mp (List.mem_of_mem_filter hifil)
      refine ⟨Nat.zero_le _, Nat.le_add_right _ _, i, hic, rfl, ?_⟩
      dsimp only [windowEmit]
      omega

/-- Witness for claim C10 at the concrete input `("a coli", "coli")`, whose
single match is `(2, 6)`. -/
theorem fuzzy_find_all_sorted_and_span_lengths_witness :
    (fuzzyFindAll "a coli" "coli" 83 false).Pairwise (fun p q => p.1 ≤ q.1) ∧
      (0 ≤ ((2, 6) : Nat × Nat).1 ∧ ((2, 6) : Nat × Nat).1 ≤ ((2, 6) : Nat × Nat).2 ∧
        ∃ i < windowCount "a coli" "coli",
          ((2, 6) : Nat × Nat).1 = startOff (pyWords "a coli") i ∧
          ((2, 6) : Nat × Nat).2 - ((2, 6) : Nat × Nat).1 =
            (pyStripPunct (windowAt "a coli" "coli" i)).length) :=
  ⟨(fuzzy_find_all_sorted_and_span_lengths "a coli" "coli" 83 false).1,
   (fuzzy_find_all_sorted_and_span_lengths "a coli" "coli" 83 false).2 (2, 6) (by decide)⟩

/-! ## Offset reconstruction (claim C7) -/

theorem joinSpace_cons (w : List Char) (ws : List (List Char)) (h : ws ≠ []) :
    joinSpace (w :: ws) = w ++ ' ' :: joinSpace ws := by
  cases ws with
  | nil => exact absurd rfl h
  | cons x t => rfl

theorem startOff_succ (w : List Char) (rest : List (List Char)) (i : Nat) :
    startOff (w :: rest) (i + 1) = w.length + 1 + startOff rest i := by
  unfold startOff
  rw [List.take_succ_cons, List.map_cons, List.sum_cons]

theorem drop_joinSpace (ws : List (List Char)) : ∀ i, i < ws.length →
    (joinSpace ws).drop (startOff ws i) = joinSpace (ws.drop i) := by
  induction ws with
  | nil => intro i h; simp at h
  | cons w rest ih =>
    intro i h
    cases i with
    | zero => simp [startOff]
    | succ i =>
      have hr : rest ≠ [] := by
        intro hc
        rw [hc] at h
        simp at h
      rw [joinSpace_cons w rest hr, startOff_succ]
      have hrw : w.length + 1 + startOff rest i = w.length + (1 + startOff rest i) := by
        omega
      rw [hrw, List.drop_append, Nat.add_comm 1 (startOff rest i), List.drop_succ_cons]
      have hi : i < rest.length := by
        simp only [List.length_cons] at h
        omega
      exact ih i hi

theorem take_joinSpace_prefix (ws : List (List Char)) :
    ∀ n, joinSpace (ws.take n) <+: joinSpace ws := by
  induction ws with
  | nil => intro n; simp
  | cons w rest ih =>
    intro n
    cases n with
    | zero => exact List.nil_prefix
    | succ n =>
      rw [List.take_succ_cons]
      by_cases hr : rest = []
      · subst hr
        simp
      · rw [joinSpace_cons w rest hr]
        by_cases hn : rest.take n = []
        · rw [hn]
          exact ⟨' ' :: joinSpace rest, rfl⟩
        · rw [joinSpace_cons w (rest.take n) hn]
          obtain ⟨t, htt⟩ := ih n
          refine ⟨t, ?_⟩
          rw [List.append_assoc, List.cons_append, htt]

/-- Claim C7 (amended): the emitted `start` is the sum over all preceding
tokens of token length plus one space, and `end = start + length of the
punctuation-stripped window` (not the end of the raw window); when the text is
the single-space join of its tokens and stripping removes no leading
punctuation from the window, the text between `start` and `end` is the
punctuation-stripped matched window. -/
theorem fuzzy_find_all_offsets (text pat : String) (thr : ℚ) (ab : Bool) :
    ∀ p ∈ fuzzyFindAll text pat thr ab,
      ∃ i < windowCount text pat,
        p.1 = startOff (pyWords text) i ∧
        p.2 = p.1 + (pyStripPunct (windowAt text pat i)).length ∧
        (text.toList = joinSpace (pyWords text) →
          (windowAt text pat i).dropWhile isPunctChar = windowAt text pat i →
          pySlice text p.1 p.2 = pyStripPunct (windowAt text pat i)) := by
  intro p hpmem
  rw [ffa_char] at hpmem
  by_cases hp : pyStrip pat.toList = []
  · rw [if_pos hp] at hpmem
    exact absurd hpmem (by simp)
  · rw [if_neg hp] at hpmem
    obtain ⟨i, hifil, rfl⟩ := List.mem_map.mp hpmem
    have hic : i < windowCount text pat :=
      List.mem_range.mp (List.mem_of_mem_filter hifil)
    refine ⟨i, hic, rfl, rfl, ?_⟩
    intro htext hnolead
    have hn : 1 ≤ (pyWords pat).length := by
      have h := pyWords_ne_nil pat hp
      cases hpw : pyWords pat with
      | nil => exact absurd hpw h
      | cons a l => simp
    have hiw : i < (pyWords text).length := by
      unfold windowCount at hic
      omega
    dsimp only [windowEmit]
    unfold pySlice
    rw [htext, drop_joinSpace (pyWords text) i hiw]
    have hlen : startOff (pyWords text) i + (pyStripPunct (windowAt text pat i)).length -
        startOff (pyWords text) i = (pyStripPunct (windowAt text pat i)).length := by
      omega
    rw [hlen]
    have hpre : pyStripPunct (windowAt text pat i) <+: joinSpace ((pyWords text).drop i) := by
      have h1 : pyStripPunct (windowAt text pat i) <+: windowAt text pat i := by
        unfold pyStripPunct
        rw [hnolead]
        exact List.rdropWhile_prefix _ _
      have h2 : windowAt text pat i <+: joinSpace ((pyWords text).drop i) := by
        unfold windowAt
        exact take_joinSpace_prefix _ _
      exact h1.trans h2
    exact (List.prefix_iff_eq_take.mp hpre).symm

/-- Counterexample to claim C7 as stated: on text `"(coli"` and pattern
`"coli"` the emitted pair is `(0, 4)`, but the text between offsets 0 and 4 is
`"(col"` — neither the matched window `"(coli"` (whose end is 5, not 4) nor
its punctuation-stripped form `"coli"`. -/
theorem fuzzy_find_all_offsets_cex :
    fuzzyFindAll "(coli" "coli" 83 false = [(0, 4)] ∧
      pySlice "(coli" 0 4 = ['(', 'c', 'o', 'l'] ∧
      pySlice "(coli" 0 4 ≠ "(coli".toList ∧
      pySlice "(coli" 0 4 ≠ "coli".toList := by
  decide

/-- Witness for claim C7's amended theorem at the concrete input
`("a coli", "coli")` and its match `(2, 6)`. -/
theorem fuzzy_find_all_offsets_witness :
    ∃ i < windowCount "a coli" "coli",
      ((2, 6) : Nat × Nat).1 = startOff (pyWords "a coli") i ∧
      ((2, 6) : Nat × Nat).2 = ((2, 6) : Nat × Nat).1 +
        (pyStripPunct (windowAt "a coli" "coli" i)).length ∧
      ("a coli".toList = joinSpace (pyWords "a coli") →
        (windowAt "a coli" "coli" i).dropWhile isPunctChar = windowAt "a coli" "coli" i →
        pySlice "a coli" ((2, 6) : Nat × Nat).1 ((2, 6) : Nat × Nat).2 =
          pyStripPunct (windowAt "a coli" "coli" i)) :=
  fuzzy_find_all_offsets "a coli" "coli" 83 false (2, 6) (by decide)

/-- Evaluation helper: `normalize_strain_names` on a one-element collection. -/
theorem normalizeStrainNames_singleton (a : String) :
    normalizeStrainNames [a] =
      [a].toFinset ∪
        (if 1 < (pySplitChar (applySubstitutions a).1 '/').length ∨ 0 < (applySubstitutions a).2
         then (∅ : Finset String) ∪ ((pySplitChar (applySubstitutions a).1 '/').map pyStripStr).toFinset
         else ∅) := rfl

/-- Claim C5: `normalize_strain_names` returns a superset of its input (no
original string is discarded); normalizing `{"544 / ATCC 23448"}` yields a set
containing `"544"`, `"ATCC 23448"` and the original string, and normalizing
`{"NRRL B771"}` yields a set containing `"NRRL B-771"` and `"NRRL B771"`. -/
theorem normalize_strain_names_superset_and_examples :
    (∀ (names : List String) (x : String), x ∈ names → x ∈ normalizeStrainNames names) ∧
      "544" ∈ normalizeStrainNames ["544 / ATCC 23448"] ∧
      "ATCC 23448" ∈ normalizeStrainNames ["544 / ATCC 23448"] ∧
      "544 / ATCC 23448" ∈ normalizeStrainNames ["544 / ATCC 23448"] ∧
      "NRRL B-771" ∈ normalizeStrainNames ["NRRL B771"] ∧
      "NRRL B771" ∈ normalizeStrainNames ["NRRL B771"] := by
  refine ⟨?_, ?_, ?_, ?_, ?_, ?_⟩
  · intro names x hx
    show x ∈ names.toFinset ∪ _
    exact Finset.mem_union_left _ (List.mem_toFinset.mpr hx)
  · rw [normalizeStrainNames_singleton, if_pos (by decide)]
    exact Finset.mem_union_right _ (Finset.mem_union_right _ (List.mem_toFinset.mpr (by decide)))
  · rw [normalizeStrainNames_singleton, if_pos (by decide)]
    exact Finset.mem_union_right _ (Finset.mem_union_right _ (List.mem_toFinset.mpr (by decide)))
  · rw [normalizeStrainNames_singleton]
    exact Finset.mem_union_left _ (List.mem_toFinset.mpr (by decide))
  · rw [normalizeStrainNames_singleton, if_pos (by decide)]
    exact Finset.mem_union_right _ (Finset.mem_union_right _ (List.mem_toFinset.mpr (by decide)))
  · rw [normalizeStrainNames_singleton]
    exact Finset.mem_union_left _ (List.mem_toFinset.mpr (by decide))

/-- Witness for claim C5's universally quantified superset part at a concrete
input. -/
theorem normalize_strain_names_superset_witness :
    "DSM 1" ∈ normalizeStrainNames ["DSM 1"] :=
  normalize_strain_names_superset_and_examples.1 ["DSM 1"] "DSM 1" (by decide)

/-! ## Properties of `insert_bacteria_record` -/

theorem find?_append_none {α : Type} (p : α → Bool) (l1 l2 : List α)
    (h : l1.find? p = none) : (l1 ++ l2).find? p = l2.find? p := by
  induction l1 with
  | nil => simp
  | cons a l ih =>
    rw [List.find?_cons] at h
    rcases hpa : p a with _ | _
    · rw [List.cons_append, List.find?_cons, hpa]
      rw [hpa] at h
      exact ih h
    · rw [hpa] at h
      simp at h

theorem bacteriaByName_addRecord (st : BacStore) (query : String) (syns : Finset String)
    (hnone : bacteriaByName st query = none) :
    bacteriaByName (addBacteriaRecord st query syns).2 query =
      some (st.nextId, ⟨query, syns⟩) := by
  unfold bacteriaByName at hnone ⊢
  unfold addBacteriaRecord
  rw [find?_append_none _ _ _ hnone, List.find?_cons_of_pos]
  unfold bacMatches
  simp

theorem find?_map_update (query : String) (pid : Nat) (l : List (Nat × BacRecord))
    (hnone : l.find? (bacMatches query) = none)
    (hex : ∃ x ∈ l, x.1 = pid) :
    ∃ r, (l.map fun p =>
        if p.1 = pid then (p.1, { p.2 with synonyms := p.2.synonyms ∪ {query} }) else p).find?
      (bacMatches query) = some (pid, r) := by
  induction l with
  | nil => obtain ⟨x, hx, _⟩ := hex; exact absurd hx (by simp)
  | cons a t ih =>
    have hall := List.find?_eq_none.mp hnone
    have hta : t.find? (bacMatches query) = none :=
      List.find?_eq_none.mpr fun x hx => hall x (List.mem_cons_of_mem a hx)
    rw [List.map_cons]
    by_cases hpid : a.1 = pid
    · refine ⟨{ a.2 with synonyms := a.2.synonyms ∪ {query} }, ?_⟩
      rw [if_pos hpid, hpid, List.find?_cons_of_pos]
      unfold bacMatches
      simp
    · rw [if_neg hpid, List.find?_cons_of_neg]
      · rcases hex with ⟨x, hx, hx1⟩
        rcases List.mem_cons.mp hx with rfl | hxt
        · exact absurd hx1 hpid
        · exact ih hta ⟨x, hxt, hx1⟩
      · simpa using hall a (List.mem_cons_self a t)

theorem bacteriaByName_after_insert (env : Lpsn) (st : BacStore) (query : String) :
    ∃ r, bacteriaByName (insertBacteriaRecord env st query).2 query =
      some ((insertBacteriaRecord env st query).1, r) := by
  cases h : bacteriaByName st query with
  | some m =>
    refine ⟨m.2, ?_⟩
    simp only [insertBacteriaRecord, h]
  | none =>
    cases hid : env.lpsnId query with
    | none =>
      refine ⟨⟨query, ∅⟩, ?_⟩
      simp only [insertBacteriaRecord, h, hid]
      exact bacteriaByName_addRecord st query ∅ h
    | some lid =>
      by_cases hlid : lid = 0
      · subst hlid
        refine ⟨⟨query, ∅⟩, ?_⟩
        simp only [insertBacteriaRecord, h, hid, ne_eq, not_true_eq_false, if_false]
        exact bacteriaByName_addRecord st query ∅ h
      · cases hpar : env.lpsnParent lid with
        | none =>
          refine ⟨⟨query, env.lpsnSynonyms lid⟩, ?_⟩
          simp only [insertBacteriaRecord, h, hid, hpar, if_pos hlid]
          exact bacteriaByName_addRecord st query _ h
        | some pl =>
          cases hpm : bacteriaByName st pl.2 with
          | none =>
            refine ⟨⟨query, env.lpsnSynonyms lid ∪ env.lpsnSynonyms pl.1 ∪ {query}⟩, ?_⟩
            simp only [insertBacteriaRecord, h, hid, hpar, hpm, if_pos hlid]
            exact bacteriaByName_addRecord st query _ h
          | some pm =>
            have hx := List.mem_of_find?_eq_some hpm
            obtain ⟨r, hfind⟩ := find?_map_update query pm.1 st.records h ⟨pm, hx, rfl⟩
            refine ⟨r, ?_⟩
            simp only [insertBacteriaRecord, h, hid, hpar, hpm, if_pos hlid]
            unfold bacteriaByName addBacSynonyms
            exact hfind

/-- Claim C1: `insert_bacteria_record` is idempotent.  Calling it twice with
the same organism name returns the same id both times and leaves the store
after the first call unchanged — in particular the second call creates no new
record and the matched record's synonym set is identical after both calls. -/
theorem insert_bacteria_record_idempotent (env : Lpsn) (st : BacStore) (X : String) :
    insertBacteriaRecord env (insertBacteriaRecord env st X).2 X =
      insertBacteriaRecord env st X := by
  obtain ⟨r, hr⟩ := bacteriaByName_after_insert env st X
  conv_lhs => rw [insertBacteriaRecord]
  rw [hr]

/-- Claim C2 (amended): when `bacteria_by_name` finds a match,
`insert_bacteria_record` returns the matched record's id and leaves the store
completely unchanged (it does not add the name to the synonym set); the name
already is a member of the matched record's synonym set or equals its organism
field. -/
theorem insert_bacteria_record_matched (env : Lpsn) (st : BacStore) (name : String)
    (m : Nat × BacRecord) (h : bacteriaByName st name = some m) :
    insertBacteriaRecord env st name = (m.1, st) ∧
      (name ∈ m.2.synonyms ∨ m.2.organism = name) := by
  constructor
  · simp only [insertBacteriaRecord, h]
  · have hp := List.find?_some h
    unfold bacMatches at hp
    simp at hp
    tauto

/-- Witness for claim C2's amended theorem at a concrete store. -/
theorem insert_bacteria_record_matched_witness :
    insertBacteriaRecord envTrivial stX "X" = (1, stX) ∧
      ("X" ∈ (BacRecord.mk "X" ∅).synonyms ∨ (BacRecord.mk "X" ∅).organism = "X") :=
  insert_bacteria_record_matched envTrivial stX "X" (1, ⟨"X", ∅⟩) rfl

/-- Counterexample to claim C2 as stated: `"X"` matches the record
`(1, ⟨"X", ∅⟩)` by its organism field, and `insert_bacteria_record` returns
id 1 with the store unchanged — the name is *not* added to the matched
record's synonym set (no record in the store has `"X"` among its synonyms
after the call). -/
theorem insert_bacteria_record_matched_cex :
    bacteriaByName stX "X" = some (1, ⟨"X", ∅⟩) ∧
      insertBacteriaRecord envTrivial stX "X" = (1, stX) ∧
      ¬ ∃ p ∈ (insertBacteriaRecord envTrivial stX "X").2.records,
          "X" ∈ p.2.synonyms := by
  refine ⟨rfl, rfl, ?_⟩
  rintro ⟨p, hp, hmem⟩
  have hrec : (insertBacteriaRecord envTrivial stX "X").2.records =
      [(1, ⟨"X", ∅⟩)] := rfl
  rw [hrec] at hp
  have hpe : p = (1, BacRecord.mk "X" ∅) := by simpa using hp
  rw [hpe] at hmem
  simp at hmem

/-! ## Not-found behaviour of the LPSN interface (claim C4) -/

/-- Claim C4 (amended): on a not-found input, `lpsn_id` returns `None`,
`lpsn_parent` returns `None`, and `lpsn_synonyms` on a not-found *name*
returns the empty set — none of these raises; but `lpsn_synonyms` on an
absent *integer* record id raises an uncaught `IndexError` (modelled as
`none`) instead of returning the empty set. -/
theorem lpsn_not_found (tbl : List LpsnRecord) (name : String) (i : Nat)
    (hname : ∀ r ∈ tbl, ¬ (r.genus_name = (nameParts name).genus_name ∧
      r.sp_epithet = (nameParts name).sp_epithet ∧
      r.subsp_epithet = (nameParts name).subsp_epithet))
    (hid : ∀ r ∈ tbl, r.record_no ≠ i) :
    lpsnIdT tbl name = none ∧
      lpsnSynonymsStr tbl name = some ∅ ∧
      lpsnParentT tbl i = none ∧
      lpsnSynonymsNat tbl i = none := by
  have h1 : lpsnIdT tbl name = none := by
    unfold lpsnIdT
    rw [List.find?_eq_none.mpr ?_]
    · rfl
    · intro r hr
      have hh := hname r hr
      simp only [Bool.and_eq_true, decide_eq_true_eq, not_and]
      tauto
  refine ⟨h1, ?_, ?_, ?_⟩
  · unfold lpsnSynonymsStr
    rw [h1]
  · unfold lpsnParentT
    rw [List.find?_eq_none.mpr ?_]
    intro r hr
    simpa using hid r hr
  · unfold lpsnSynonymsNat
    have hf : (tbl.filter fun r => decide (r.record_no = i)) = [] := by
      rw [List.filter_eq_nil]
      intro r hr
      simpa using hid r hr
    rw [hf]

/-- Counterexample to claim C4 as stated: on a one-row LPSN table,
`lpsn_synonyms` applied to the absent record id 999 hits
`...["record_lnk"].values[0]` on an empty selection and raises `IndexError`
(modelled as `none`) — it does not return the empty synonym set. -/
theorem lpsn_not_found_cex :
    lpsnSynonymsNat [⟨1, none, "Escherichia", "coli", ""⟩] 999 = none ∧
      lpsnSynonymsNat [⟨1, none, "Escherichia", "coli", ""⟩] 999 ≠ some ∅ := by
  refine ⟨rfl, ?_⟩
  intro hc
  exact Option.noConfusion hc

/-- Witness for claim C4's amended theorem at a concrete table, absent name
and absent id. -/
theorem lpsn_not_found_witness :
    lpsnIdT [⟨1, none, "Escherichia", "coli", ""⟩] "Wolbachia pipientis" = none ∧
      lpsnSynonymsStr [⟨1, none, "Escherichia", "coli", ""⟩] "Wolbachia pipientis" = some ∅ ∧
      lpsnParentT [⟨1, none, "Escherichia", "coli", ""⟩] 999 = none ∧
      lpsnSynonymsNat [⟨1, none, "Escherichia", "coli", ""⟩] 999 = none :=
  lpsn_not_found [⟨1, none, "Escherichia", "coli", ""⟩] "Wolbachia pipientis" 999
    (by decide) (by decide)

/-! ## Reclassifier completeness (claim C3) and annotator idempotence (claim C8) -/

/-- Claim C3 fails on the code (code bug): with the mention `(7, "X")`
classified as bacteria while the bacteria table already holds a record for
`"X"` that the document's `bacteria` mapping does not reference, one
`fix_taxonomy` pass removes mention 7 from `other_organisms` but adds nothing
to the document's `bacteria` mapping or `strains` — the mention is silently
dropped, contradicting the module's own docstring ("move it to the bacteria
field of the document"). -/
theorem fix_taxonomy_drops_mention :
    (fixTaxonomyDoc envClassifyX stX ⟨[], 1⟩ ⟨[(7, "X")], [], []⟩).2.2 =
        TaxDoc.mk [] [] [] ∧
      bacteriaByName stX "X" = some (1, ⟨"X", ∅⟩) ∧
      envClassifyX.isBacteria "X" = true :=
  ⟨rfl, rfl, rfl⟩

/-- Claim C8: `mark_entities` is idempotent on entity spans — annotating an
already-annotated document again with unchanged entity records yields an
identical `entity_spans` set (new spans are combined by set union); a
document whose abstract is unset or empty is returned unchanged. -/
theorem mark_entities_idempotent (db : AnnDb) (now1 now2 : Nat) (doc : AnnDoc) :
    (markEntities db now2 (markEntities db now1 doc)).entity_spans =
        (markEntities db now1 doc).entity_spans ∧
      ((doc.abstract = none ∨ doc.abstract = some "") → markEntities db now1 doc = doc) ∧
      (∀ a : String, doc.abstract = some a → a ≠ "" →
        (markEntities db now1 doc).entity_spans = doc.entity_spans ∪ newSpans db a doc) := by
  cases habs : doc.abstract with
  | none =>
    have h1 : ∀ n : Nat, markEntities db n doc = doc := by
      intro n
      simp [markEntities, habs]
    refine ⟨?_, fun _ => h1 now1, ?_⟩
    · rw [h1 now1, h1 now2]
    · intro b hb _
      exact absurd hb (by simp)
  | some a =>
    by_cases ha : a = ""
    · subst ha
      have h1 : ∀ n : Nat, markEntities db n doc = doc := by
        intro n
        simp [markEntities, habs]
      refine ⟨?_, fun _ => h1 now1, ?_⟩
      · rw [h1 now1, h1 now2]
      · intro b hb hbne
        have hb2 : ("" : String) = b := by simpa using hb
        exact absurd hb2.symm hbne
    · have hd1 : markEntities db now1 doc =
          { doc with
            entity_spans := doc.entity_spans ∪ newSpans db a doc,
            modified := some now1 } := by
        simp only [markEntities, habs]
        rw [if_neg ha]
      set d1 := markEntities db now1 doc with hd1def
      have habs1 : d1.abstract = some a := by
        rw [hd1]
        exact habs
      have hd2 : markEntities db now2 d1 =
          { d1 with
            entity_spans := d1.entity_spans ∪ newSpans db a d1,
            modified := some now2 } := by
        simp only [markEntities, habs1]
        rw [if_neg ha]
      refine ⟨?_, ?_, ?_⟩
      · rw [hd2]
        show d1.entity_spans ∪ newSpans db a d1 = d1.entity_spans
        have hN : newSpans db a d1 = newSpans db a doc := by
          rw [hd1]
          rfl
        have hE : d1.entity_spans = doc.entity_spans ∪ newSpans db a doc := by
          rw [hd1]
        rw [hN, hE, Finset.union_assoc, Finset.union_self]
      · intro h
        rcases h with h | h
        · exact absurd h (by simp)
        · have : a = "" := by simpa using h
          exact absurd this ha
      · intro b hb hbne
        have hab : a = b := by simpa using hb
        rw [← hab, hd1]

/-- Witness for claim C8 at a concrete database and document (abstract
unset). -/
theorem mark_entities_idempotent_witness :
    (markEntities annDb0 1 (markEntities annDb0 0 annDoc0)).entity_spans =
        (markEntities annDb0 0 annDoc0).entity_spans ∧
      markEntities annDb0 0 annDoc0 = annDoc0 :=
  ⟨(mark_entities_idempotent annDb0 0 1 annDoc0).1,
   (mark_entities_idempotent annDb0 0 1 annDoc0).2.1 (Or.inl rfl)⟩
